import Mathlib

/-!
Shallow embedding of the statistical inference core of the
E-commerce Landing Page A/B Test Analysis repository
(`src/statistics.py` and `src/ab_analysis/analysis/stats_tests.py`),
together with proofs and refutations of the specified properties.

Modelling conventions:

* Python/NumPy floating-point numbers are idealised as exact rationals `ℚ`
  wherever the code only performs field operations and comparisons, and as
  real numbers `ℝ` where genuine square roots matter (`power_analysis`).
  Floating-point representation error is out of scope.
* Python's `round(x, n)` rounds half to even; it is modelled exactly by
  `pyround` (on `ℚ`) and `pyroundR` (on `ℝ`) below.
* Pure-Python division raises `ZeroDivisionError` on a zero divisor;
  fallible code is modelled with `Except PyErr`, and `pydiv` is the
  faithful model of that `/`.  NumPy *scalar* division does not raise: it
  yields NaN (with a RuntimeWarning) and computation continues, which is
  modelled with `Option ℚ` (`none` = NaN) and `npdiv0`/`nmap2` inside
  `z_test`, whose operands are pandas/NumPy scalars.
* Transcendental library functions (`scipy.stats.norm.ppf`, `np.arcsin`,
  `np.sqrt` on the `ℚ` side, `chi2.sf`, `statsmodels.proportions_ztest`,
  NumPy's seeded Beta sampler) have no exact finite description; they are
  taken as explicit function parameters of the embedded definitions, so
  every theorem quantifies over all their instantiations, in particular
  the true one.
-/

namespace ABTest

/-- Round half to even on `ℚ`: the tie-breaking rule used by Python's
built-in `round` (banker's rounding). -/
def rhe (q : ℚ) : ℤ :=
  if q - q.floor < 1/2 then q.floor
  else if 1/2 < q - q.floor then q.floor + 1
  else if q.floor % 2 = 0 then q.floor else q.floor + 1

/-- Python's `round(x, n)` for `n ≥ 0` digits, on exact rationals. -/
def pyround (n : ℕ) (q : ℚ) : ℚ := (rhe (q * 10 ^ n) : ℚ) / 10 ^ n

theorem rhe_of_floor_eq (q : ℚ) (f : ℤ) (hf : ⌊q⌋ = f) :
    rhe q = if q - f < 1/2 then f else if 1/2 < q - f then f + 1
      else if Even f then f else f + 1 := by
  have hq : q.floor = f := by
    rw [← hf, Rat.floor_def, ← Rat.floor_def']
  simp [rhe, hq, Int.even_iff]

theorem rhe_intCast (m : ℤ) : rhe (m : ℚ) = m := by
  rw [rhe_of_floor_eq _ m (Int.floor_intCast m)]
  norm_num

/-- Round-half-to-even is an odd function. -/
theorem rhe_neg (q : ℚ) : rhe (-q) = - rhe q := by
  have hle : (⌊q⌋ : ℚ) ≤ q := Int.floor_le q
  have hlt : q < ⌊q⌋ + 1 := Int.lt_floor_add_one q
  rcases eq_or_lt_of_le hle with heq | hlt0
  · -- `q` is an integer
    rw [← heq, show -((⌊q⌋ : ℤ) : ℚ) = ((-⌊q⌋ : ℤ) : ℚ) by push_cast; ring,
      rhe_intCast, rhe_intCast]
  · -- `q` has a nonzero fractional part
    have h2 : ⌊-q⌋ = -⌊q⌋ - 1 := by
      rw [Int.floor_eq_iff]
      constructor
      · push_cast; linarith
      · push_cast; linarith
    rw [rhe_of_floor_eq q ⌊q⌋ rfl, rhe_of_floor_eq (-q) (-⌊q⌋ - 1) h2]
    have e1 : -q - ((-⌊q⌋ - 1 : ℤ) : ℚ) = 1 - (q - ⌊q⌋) := by push_cast; ring
    rw [e1]
    simp only [Int.even_iff]
    rcases lt_trichotomy (q - ⌊q⌋) (1/2) with hr | hr | hr
    · rw [if_neg (by linarith), if_pos (by linarith), if_pos hr]
      omega
    · have c1 : ¬(1 - (q - (⌊q⌋ : ℚ)) < 1/2) := by rw [hr]; norm_num
      have c2 : ¬((1 : ℚ)/2 < 1 - (q - (⌊q⌋ : ℚ))) := by rw [hr]; norm_num
      have c3 : ¬(q - (⌊q⌋ : ℚ) < 1/2) := by rw [hr]; norm_num
      have c4 : ¬((1 : ℚ)/2 < q - (⌊q⌋ : ℚ)) := by rw [hr]; norm_num
      rw [if_neg c1, if_neg c2, if_neg c3, if_neg c4]
      split_ifs with p1 p2 <;> omega
    · rw [if_pos (by linarith), if_neg (by linarith), if_pos hr]
      omega

/-- Translating by an even integer commutes with round-half-to-even. -/
theorem rhe_even_add (c : ℤ) (hc : Even c) (q : ℚ) :
    rhe ((c : ℚ) + q) = c + rhe q := by
  have hc2 : c % 2 = 0 := Int.even_iff.mp hc
  have hf : ⌊(c : ℚ) + q⌋ = c + ⌊q⌋ := by
    rw [add_comm ((c : ℚ)) q, Int.floor_add_int, add_comm]
  rw [rhe_of_floor_eq _ _ hf, rhe_of_floor_eq q ⌊q⌋ rfl]
  have hr : (c : ℚ) + q - ((c + ⌊q⌋ : ℤ) : ℚ) = q - ⌊q⌋ := by push_cast; ring
  rw [hr]
  simp only [Int.even_iff]
  split_ifs <;> omega

theorem rhe_le (q : ℚ) : (rhe q : ℚ) ≤ q + 1/2 := by
  have hle : (⌊q⌋ : ℚ) ≤ q := Int.floor_le q
  rw [rhe_of_floor_eq q ⌊q⌋ rfl]
  split_ifs with h1 h2 h3 <;> push_cast <;> linarith

theorem rhe_eq_zero_of (q : ℚ) (h0 : 0 ≤ q) (h : q ≤ 1/2) : rhe q = 0 := by
  have hf : ⌊q⌋ = 0 := by
    rw [Int.floor_eq_iff]
    constructor
    · exact_mod_cast h0
    · push_cast; linarith
  rw [rhe_of_floor_eq q 0 hf]
  simp only [Int.cast_zero, sub_zero]
  rcases lt_or_eq_of_le h with h' | h'
  · rw [if_pos h']
  · rw [if_neg (by simp [h']), if_neg (by simp [h']), if_pos (by decide)]

theorem pyround_neg (n : ℕ) (q : ℚ) : pyround n (-q) = - pyround n q := by
  unfold pyround
  rw [show -q * 10 ^ n = -(q * 10 ^ n) by ring, rhe_neg]
  push_cast
  ring

/-- For `n ≥ 1` digits, rounding commutes with the reflection `x ↦ 1 - x`
(because `10 ^ n` is even, the half-to-even ties break symmetrically). -/
theorem pyround_one_sub (n : ℕ) (hn : 0 < n) (q : ℚ) :
    pyround n (1 - q) = 1 - pyround n q := by
  unfold pyround
  have h1 : (1 - q) * 10 ^ n = ((10 ^ n : ℤ) : ℚ) + -(q * 10 ^ n) := by
    push_cast; ring
  have hev : Even ((10 : ℤ) ^ n) := Int.even_pow.mpr ⟨by decide, by omega⟩
  rw [h1, rhe_even_add _ hev, rhe_neg]
  have hpow : (10 : ℚ) ^ n ≠ 0 := by positivity
  push_cast
  field_simp
  ring

theorem pyround_le (n : ℕ) (q : ℚ) : pyround n q ≤ q + 1 / (2 * 10 ^ n) := by
  unfold pyround
  have hpow : (0 : ℚ) < 10 ^ n := by positivity
  have h2 : (q + 1 / (2 * 10 ^ n)) * 10 ^ n = q * 10 ^ n + 1/2 := by
    field_simp
    ring
  rw [div_le_iff hpow, h2]
  exact rhe_le _

theorem pyround_eq_zero_of (n : ℕ) (q : ℚ) (h0 : 0 ≤ q)
    (h : q ≤ 1 / (2 * 10 ^ n)) : pyround n q = 0 := by
  unfold pyround
  have hpow : (0 : ℚ) < 10 ^ n := by positivity
  have hb : q * 10 ^ n ≤ 1/2 := by
    calc q * 10 ^ n ≤ (1 / (2 * 10 ^ n)) * 10 ^ n :=
          mul_le_mul_of_nonneg_right h (le_of_lt hpow)
      _ = 1/2 := by field_simp <;> ring
  rw [rhe_eq_zero_of _ (mul_nonneg h0 (le_of_lt hpow)) hb, Int.cast_zero,
    zero_div]

/-- The Python exception classes relevant to the embedded code.
`zeroDivisionError` is what CPython raises on `x / 0`; `valueError` models
the validation error raised inside `scipy.stats.chi2_contingency`;
`insufficientDataError` is the error class named by the specification's
error taxonomy — no such class is defined anywhere in the repository, the
constructor exists here only so that the corresponding claim is statable. -/
inductive PyErr where
  | zeroDivisionError : PyErr
  | insufficientDataError : PyErr
  | valueError : PyErr
deriving DecidableEq, Repr

/-- Python's division operator: raises `ZeroDivisionError` on a zero
divisor (for `int` and `float` operands alike), otherwise exact. -/
def pydiv (a b : ℚ) : Except PyErr ℚ :=
  if b = 0 then .error .zeroDivisionError else .ok (a / b)

/-- One row of the analysis DataFrame: a variant label and the binary
`converted` outcome (0 or 1, summed numerically by pandas). -/
structure Row where
  group : String
  converted : ℚ
deriving DecidableEq, Repr

/-- Componentwise lifting of a binary operation to NaN-able NumPy float
scalars (`none` models NaN): any operation involving NaN yields NaN. -/
def nmap2 (f : ℚ → ℚ → ℚ) : Option ℚ → Option ℚ → Option ℚ
  | some a, some b => some (f a b)
  | _, _ => none

/-- The NumPy scalar division in `z_test`'s rate computation
(`Series.sum() / len(...)`: an `np.int64` divided by a Python `int`).
Unlike pure-Python division it does not raise on a zero divisor — it
emits a RuntimeWarning and yields NaN.  (A zero divisor here forces a
zero dividend, the sum over the empty group, so the reachable case is
`0/0 = NaN`; the `±inf` result of `x/0` with `x ≠ 0` is unreachable.) -/
def npdiv0 (a b : ℚ) : Option ℚ := if b = 0 then none else some (a / b)

/-- NumPy comparison `x > 0`: any comparison against NaN is `False`. -/
def npGtZero : Option ℚ → Bool
  | some x => decide (0 < x)
  | none => false

/-- The dictionary returned by `z_test` (`src/statistics.py`, lines
41-50).  Its values are pandas/NumPy float scalars, which may be NaN:
`none` models NaN, `some q` a finite float. -/
structure ZTestResult where
  z_statistic : Option ℚ
  p_value : Option ℚ
  control_conv : Option ℚ
  treatment_conv : Option ℚ
  absolute_diff : Option ℚ
  relative_diff_pct : Option ℚ
  ci_95_lower : Option ℚ
  ci_95_upper : Option ℚ
deriving DecidableEq, Repr

/-- `z_test` from `src/statistics.py` (lines 13-50).  All intermediate
values are NumPy float scalars, so the function never raises: on a
zero-trial group the rate division `x.sum()/len(x)` produces NaN (with a
RuntimeWarning only) and the NaN propagates into the returned dictionary.
`pztest` is the abstracted `statsmodels.stats.proportions_ztest` (which
likewise warns rather than raises on zero `nobs`, returning NaN-able
floats); `sqrtQ` is the abstracted `np.sqrt`.  The divisions inside the
standard error use ℚ's total division: a zero denominator there is
reachable only when the corresponding rate is NaN already, so the lifted
result is NaN regardless. -/
def z_test (pztest : ℚ → ℚ → ℚ → ℚ → Option ℚ × Option ℚ) (sqrtQ : ℚ → ℚ)
    (df : List Row) (control treatment : String) : ZTestResult :=
  let ctrl := df.filter (fun r => r.group == control)
  let treat := df.filter (fun r => r.group == treatment)
  let n_ctrl : ℚ := ctrl.length
  let n_treat : ℚ := treat.length
  let x_ctrl : ℚ := (ctrl.map (fun r => r.converted)).sum
  let x_treat : ℚ := (treat.map (fun r => r.converted)).sum
  let zp := pztest x_treat x_ctrl n_treat n_ctrl
  let p_ctrl := npdiv0 x_ctrl n_ctrl
  let p_treat := npdiv0 x_treat n_treat
  let diff := nmap2 (fun a b => a - b) p_treat p_ctrl
  let se := (nmap2 (fun a b => a + b)
    (p_ctrl.map (fun p => p * (1 - p) / n_ctrl))
    (p_treat.map (fun p => p * (1 - p) / n_treat))).map sqrtQ
  let ci_lower := nmap2 (fun d s => d - 196/100 * s) diff se
  let ci_upper := nmap2 (fun d s => d + 196/100 * s) diff se
  { z_statistic := zp.1.map (pyround 4)
    p_value := zp.2.map (pyround 4)
    control_conv := p_ctrl.map (pyround 6)
    treatment_conv := p_treat.map (pyround 6)
    absolute_diff := diff.map (pyround 6)
    relative_diff_pct :=
      if npGtZero p_ctrl then
        (nmap2 (fun d p => d / p * 100) diff p_ctrl).map (pyround 4)
      else some 0
    ci_95_lower := ci_lower.map (pyround 6)
    ci_95_upper := ci_upper.map (pyround 6) }

/-- The `ABResult` dataclass of
`src/ab_analysis/analysis/stats_tests.py` (lines 12-22). -/
structure ABResult where
  control_rate : ℚ
  treatment_rate : ℚ
  absolute_lift : ℚ
  relative_lift : ℚ
  z_statistic : ℚ
  p_value : ℚ
  ci_low : ℚ
  ci_high : ℚ
  cohens_h : ℚ
deriving DecidableEq, Repr

/-- `run_ab_test` from `src/ab_analysis/analysis/stats_tests.py`
(lines 40-69).  `pztest` abstracts `proportions_ztest` (the `alternative`
string only influences it, so it is folded into the abstraction), `sqrtQ`
abstracts `math.sqrt`, `asinQ` abstracts `math.asin`, and `ppfQ` abstracts
`scipy.stats.norm.ppf`. -/
def run_ab_test (pztest : ℚ → ℚ → ℚ → ℚ → ℚ × ℚ) (sqrtQ asinQ ppfQ : ℚ → ℚ)
    (df : List Row) (alpha : ℚ) : Except PyErr ABResult :=
  let control := (df.filter (fun r => r.group == "control")).map (fun r => r.converted)
  let treatment := (df.filter (fun r => r.group == "treatment")).map (fun r => r.converted)
  let n1 : ℚ := control.length
  let n2 : ℚ := treatment.length
  let x1 : ℚ := control.sum
  let x2 : ℚ := treatment.sum
  do
  let p1 ← pydiv x1 n1
  let p2 ← pydiv x2 n2
  let zp := pztest x2 x1 n2 n1
  let diff := p2 - p1
  let se := sqrtQ (p1 * (1 - p1) / n1 + p2 * (1 - p2) / n2)
  let z_critical := ppfQ (1 - alpha / 2)
  let ci_low := diff - z_critical * se
  let ci_high := diff + z_critical * se
  let h := 2 * (asinQ (sqrtQ p2) - asinQ (sqrtQ p1))
  let rel ← pydiv diff p1
  return {
    control_rate := p1, treatment_rate := p2, absolute_lift := diff,
    relative_lift := rel, z_statistic := zp.1, p_value := zp.2,
    ci_low := ci_low, ci_high := ci_high, cohens_h := h }

/-- `cohens_h` from `src/statistics.py` (lines 53-55):
`round(2 * (np.arcsin(np.sqrt(p1)) - np.arcsin(np.sqrt(p2))), 4)`, with
`np.arcsin` and `np.sqrt` abstracted as `asinQ` and `sqrtQ`. -/
def cohens_h (asinQ sqrtQ : ℚ → ℚ) (p1 p2 : ℚ) : ℚ :=
  pyround 4 (2 * (asinQ (sqrtQ p1) - asinQ (sqrtQ p2)))

/-- One entry of the `results` list of `bonferroni_correction`. -/
structure BonfEntry where
  p_value : ℚ
  significant : Bool
deriving DecidableEq, Repr

/-- The dictionary returned by `bonferroni_correction`. -/
structure BonfResult where
  original_alpha : ℚ
  n_tests : ℕ
  adjusted_alpha : ℚ
  results : List BonfEntry
deriving DecidableEq, Repr

/-- `bonferroni_correction` from `src/statistics.py` (lines 177-193).
Note that the returned `adjusted_alpha` field is `round(alpha/n, 6)` while
the significance flags compare against the unrounded `alpha/n`. -/
def bonferroni_correction (p_values : List ℚ) (alpha : ℚ) :
    Except PyErr BonfResult := do
  let n_tests := p_values.length
  let adjusted ← pydiv alpha n_tests
  return {
    original_alpha := alpha, n_tests := n_tests,
    adjusted_alpha := pyround 6 adjusted,
    results := p_values.map (fun p =>
      { p_value := pyround 4 p, significant := decide (p < adjusted) }) }

/-- Stable insertion of index `i` into an index list sorted by `le`:
`i` goes after every already-placed index whose key is `≤` its own. -/
def insertIdxBy (le : ℕ → ℕ → Bool) (i : ℕ) : List ℕ → List ℕ
  | [] => [i]
  | j :: rest => if le j i then j :: insertIdxBy le i rest else i :: j :: rest

/-- `np.argsort(p_values)`: the indices `0, …, n-1` sorted ascending by
their p-value.  (NumPy's default introsort leaves the order of exact ties
unspecified; the model determinises it as the stable order.) -/
def argsort (ps : List ℚ) : List ℕ :=
  (List.range ps.length).foldl
    (fun acc i => insertIdxBy (fun a b => decide (ps.getD a 0 ≤ ps.getD b 0)) i acc) []

/-- `holm_correction` from `src/ab_analysis/analysis/stats_tests.py`
(lines 72-78): positionally assigns `min((n - rank) * p, 1.0)` through the
argsort order, starting from an uninitialised (`np.empty`) output array,
modelled as zeros since every cell is written exactly once. -/
def holm_correction (p_values : List ℚ) : List ℚ :=
  let n := p_values.length
  let order := argsort p_values
  order.enum.foldl
    (fun adjusted ri =>
      adjusted.set ri.2 (min (((n - ri.1 : ℕ) : ℚ) * p_values.getD ri.2 0) 1))
    (List.replicate n 0)

/-- The dictionary returned by `srm_check`. -/
structure SrmResult where
  control_count : ℕ
  treatment_count : ℕ
  chi2 : ℚ
  p_value : ℚ
deriving DecidableEq, Repr

/-- Yates continuity adjustment used by `scipy.stats.chi2_contingency` when
`dof == 1`: move each observed cell `min(0.5, |expected-observed|)` towards
its expected value. -/
def yatesAdjust (o e : ℚ) : ℚ :=
  if o < e then o + min (1/2) (e - o)
  else if e < o then o - min (1/2) (o - e)
  else o

/-- `scipy.stats.chi2_contingency` restricted to a 2×2 table (the only
shape the repository feeds it): expected frequencies from the row/column
marginals, `ValueError` on a zero expected cell, Yates continuity
correction (the default, since `dof = (2-1)(2-1) = 1`), and the Pearson
statistic `Σ (adjusted-expected)²/expected`.  Returns `(chi2, dof)`.
(A zero table total makes NumPy produce NaN expected frequencies; that
corner is modelled as the division error.) -/
def chi2_contingency_2x2 (o11 o12 o21 o22 : ℚ) : Except PyErr (ℚ × ℕ) := do
  let r1 := o11 + o12
  let r2 := o21 + o22
  let c1 := o11 + o21
  let c2 := o12 + o22
  let total := r1 + r2
  let e11 ← pydiv (r1 * c1) total
  let e12 ← pydiv (r1 * c2) total
  let e21 ← pydiv (r2 * c1) total
  let e22 ← pydiv (r2 * c2) total
  if e11 = 0 ∨ e12 = 0 ∨ e21 = 0 ∨ e22 = 0 then .error .valueError
  else
    let a11 := yatesAdjust o11 e11
    let a12 := yatesAdjust o12 e12
    let a21 := yatesAdjust o21 e21
    let a22 := yatesAdjust o22 e22
    let chi2 := (a11 - e11) ^ 2 / e11 + (a12 - e12) ^ 2 / e12
      + (a21 - e21) ^ 2 / e21 + (a22 - e22) ^ 2 / e22
    return (chi2, 1)

/-- `srm_check` from `src/ab_analysis/analysis/stats_tests.py`
(lines 25-37), starting from the extracted per-variant counts: it builds
`expected = expected_split × total` and then calls
`chi2_contingency([observed, expected])` on the *stacked* 2×2 table.
`sf` abstracts the upper-tail probability `scipy` attaches to the
statistic at `dof = 1`. -/
def srm_check (sf : ℚ → ℚ) (control_count treatment_count : ℕ)
    (split1 split2 : ℚ) : Except PyErr SrmResult := do
  let o1 : ℚ := control_count
  let o2 : ℚ := treatment_count
  let total := o1 + o2
  let e1 := split1 * total
  let e2 := split2 * total
  let cd ← chi2_contingency_2x2 o1 o2 e1 e2
  return {
    control_count := control_count, treatment_count := treatment_count,
    chi2 := cd.1, p_value := sf cd.1 }

/-- Modelled from the spec (§4.3): the chi-square goodness-of-fit
statistic "against expected counts = expected_ratio × total",
`Σ (observed-expected)²/expected` over the two cells — what the claim says
`srm_check` computes. -/
def srm_gof_chi2 (control_count treatment_count : ℕ)
    (split1 split2 : ℚ) : ℚ :=
  let o1 : ℚ := control_count
  let o2 : ℚ := treatment_count
  let total := o1 + o2
  let e1 := split1 * total
  let e2 := split2 * total
  (o1 - e1) ^ 2 / e1 + (o2 - e2) ^ 2 / e2

/-- `arr.mean()` for a NumPy array modelled as a list.  (NumPy yields NaN
on an empty array; the claims below are stated for positive sample
counts, where this model is exact.) -/
def listMean (xs : List ℚ) : ℚ := xs.sum / xs.length

/-- Insertion of a value into a sorted `ℚ` list (ascending). -/
def insertQ (x : ℚ) : List ℚ → List ℚ
  | [] => [x]
  | y :: rest => if y ≤ x then y :: insertQ x rest else x :: y :: rest

/-- Ascending insertion sort on `ℚ` (model of `np.sort`). -/
def sortQ (xs : List ℚ) : List ℚ := xs.foldl (fun acc x => insertQ x acc) []

/-- `np.percentile(xs, q)` with the default linear interpolation. -/
def npPercentile (xs : List ℚ) (q : ℚ) : ℚ :=
  let s := sortQ xs
  let n := s.length
  let h := ((n : ℚ) - 1) * q / 100
  let l := (⌊h⌋).toNat
  let lo := s.getD l 0
  let hi := s.getD (min (l + 1) (n - 1)) 0
  lo + (h - (l : ℚ)) * (hi - lo)

/-- The dictionary returned by `bayesian_ab_test` (keys in source order;
the two `expected_diff_ci` keys are named `_lo`/`_hi` here). -/
structure BayesResult where
  prob_treatment_better : ℚ
  prob_control_better : ℚ
  expected_diff_mean : ℚ
  expected_diff_ci_lo : ℚ
  expected_diff_ci_hi : ℚ
  expected_loss_if_choose_treatment : ℚ
  expected_loss_if_choose_control : ℚ
  control_posterior_mean : ℚ
  treatment_posterior_mean : ℚ
  posterior_ctrl_samples : List ℚ
  posterior_treat_samples : List ℚ
deriving DecidableEq, Repr

/-- `bayesian_ab_test` from `src/statistics.py` (lines 127-174).  The NumPy
generator is abstracted as a state type `σ` with `init` modelling
`np.random.RandomState(seed)` and `betaSample st a b k` modelling
`st.beta(a, b, k)` (returning the drawn samples and the advanced state);
the generator is constructed *inside* the call from `seed`, exactly as in
the source, and the two `beta` calls thread its state in source order. -/
def bayesian_ab_test {σ : Type} (init : ℕ → σ)
    (betaSample : σ → ℚ → ℚ → ℕ → List ℚ × σ)
    (n_ctrl conv_ctrl n_treat conv_treat : ℕ) (n_samples : ℕ)
    (prior_alpha prior_beta : ℚ) (seed : ℕ) : BayesResult :=
  let rng := init seed
  let pc := betaSample rng (prior_alpha + (conv_ctrl : ℚ))
    (prior_beta + (n_ctrl : ℚ) - (conv_ctrl : ℚ)) n_samples
  let post_ctrl := pc.1
  let pt := betaSample pc.2 (prior_alpha + (conv_treat : ℚ))
    (prior_beta + (n_treat : ℚ) - (conv_treat : ℚ)) n_samples
  let post_treat := pt.1
  let diff := List.zipWith (fun t c => t - c) post_treat post_ctrl
  let prob_treat_better : ℚ :=
    ((diff.filter (fun d => decide (0 < d))).length : ℚ) / (diff.length : ℚ)
  let expected_loss_treat :=
    listMean (List.zipWith (fun c t => max (c - t) 0) post_ctrl post_treat)
  let expected_loss_ctrl :=
    listMean (List.zipWith (fun t c => max (t - c) 0) post_treat post_ctrl)
  { prob_treatment_better := pyround 4 prob_treat_better
    prob_control_better := pyround 4 (1 - prob_treat_better)
    expected_diff_mean := pyround 6 (listMean diff)
    expected_diff_ci_lo := pyround 6 (npPercentile diff (5/2))
    expected_diff_ci_hi := pyround 6 (npPercentile diff (195/2))
    expected_loss_if_choose_treatment := pyround 6 expected_loss_treat
    expected_loss_if_choose_control := pyround 6 expected_loss_ctrl
    control_posterior_mean := pyround 6 (listMean post_ctrl)
    treatment_posterior_mean := pyround 6 (listMean post_treat)
    posterior_ctrl_samples := post_ctrl
    posterior_treat_samples := post_treat }

/-- `bayesian_ab_test` as it executes inside a larger program whose state
carries an ambient/global RNG stream `g : γ`: because the source
constructs `np.random.RandomState(seed)` locally, the ambient stream is
neither consumed nor advanced — the call returns it untouched. -/
def bayesian_ab_test_in {σ γ : Type} (init : ℕ → σ)
    (betaSample : σ → ℚ → ℚ → ℕ → List ℚ × σ) (g : γ)
    (n_ctrl conv_ctrl n_treat conv_treat : ℕ) (n_samples : ℕ)
    (prior_alpha prior_beta : ℚ) (seed : ℕ) : BayesResult × γ :=
  (bayesian_ab_test init betaSample n_ctrl conv_ctrl n_treat conv_treat
    n_samples prior_alpha prior_beta seed, g)

theorem pyround_zero (n : ℕ) : pyround n 0 = 0 := by
  unfold pyround
  rw [zero_mul, show (0 : ℚ) = ((0 : ℤ) : ℚ) by norm_num, rhe_intCast]
  norm_num

/-- C7: for all `p1, p2 ∈ [0,1]` (and for every instantiation of the
abstracted `np.arcsin` and `np.sqrt`), `cohens_h` is antisymmetric —
`cohens_h p1 p2 = -cohens_h p2 p1` — and `cohens_h p p = 0`.  The
antisymmetry survives the final `round(·, 4)` because round-half-to-even
is an odd function. -/
theorem cohens_h_antisymm (asinQ sqrtQ : ℚ → ℚ) (p1 p2 : ℚ)
    (h1l : 0 ≤ p1) (h1u : p1 ≤ 1) (h2l : 0 ≤ p2) (h2u : p2 ≤ 1) :
    cohens_h asinQ sqrtQ p1 p2 = - cohens_h asinQ sqrtQ p2 p1 ∧
    cohens_h asinQ sqrtQ p1 p1 = 0 := by
  constructor
  · unfold cohens_h
    rw [← pyround_neg]
    congr 1
    ring
  · unfold cohens_h
    rw [show 2 * (asinQ (sqrtQ p1) - asinQ (sqrtQ p1)) = 0 by ring]
    exact pyround_zero 4

theorem cohens_h_antisymm_witness :
    ((0 : ℚ) ≤ 0 ∧ (0 : ℚ) ≤ 1 ∧ (0 : ℚ) ≤ 1 ∧ (1 : ℚ) ≤ 1) ∧
    (cohens_h id id 0 1 = - cohens_h id id 1 0 ∧ cohens_h id id 0 0 = 0) :=
  ⟨by norm_num,
   cohens_h_antisymm id id 0 1 (by norm_num) (by norm_num) (by norm_num)
     (by norm_num)⟩

/-- C5: for every RNG implementation honouring the requested sample count
and every positive sample count, the reported `prob_control_better` is
exactly `1 - prob_treatment_better` — it is constructed as the complement
of the paired-draw fraction before rounding, and rounding to 4 digits
commutes with `x ↦ 1 - x` — so the two reported probabilities sum to
exactly 1. -/
theorem bayesian_prob_complement {σ : Type} (init : ℕ → σ)
    (betaSample : σ → ℚ → ℚ → ℕ → List ℚ × σ)
    (hlen : ∀ st a b k, (betaSample st a b k).1.length = k)
    (n_ctrl conv_ctrl n_treat conv_treat n_samples : ℕ)
    (hn : 0 < n_samples) (prior_alpha prior_beta : ℚ) (seed : ℕ) :
    (bayesian_ab_test init betaSample n_ctrl conv_ctrl n_treat conv_treat
      n_samples prior_alpha prior_beta seed).prob_control_better =
      1 - (bayesian_ab_test init betaSample n_ctrl conv_ctrl n_treat
        conv_treat n_samples prior_alpha prior_beta seed).prob_treatment_better ∧
    (bayesian_ab_test init betaSample n_ctrl conv_ctrl n_treat conv_treat
      n_samples prior_alpha prior_beta seed).prob_treatment_better +
      (bayesian_ab_test init betaSample n_ctrl conv_ctrl n_treat conv_treat
        n_samples prior_alpha prior_beta seed).prob_control_better = 1 := by
  have key : ∀ x : ℚ, pyround 4 (1 - x) = 1 - pyround 4 x :=
    pyround_one_sub 4 (by norm_num)
  have h1 : (bayesian_ab_test init betaSample n_ctrl conv_ctrl n_treat
      conv_treat n_samples prior_alpha prior_beta seed).prob_control_better =
      1 - (bayesian_ab_test init betaSample n_ctrl conv_ctrl n_treat
        conv_treat n_samples prior_alpha prior_beta
        seed).prob_treatment_better := key _
  refine ⟨h1, ?_⟩
  rw [h1]
  ring

theorem bayesian_prob_complement_witness :
    (∀ (st : Unit) (a b : ℚ) (k : ℕ),
      (((fun (_ : Unit) (a b : ℚ) (k : ℕ) =>
        (List.replicate k (a / (a + b)), ())) st a b k)).1.length = k) ∧
    (0 : ℕ) < 2 ∧
    (bayesian_ab_test (fun _ => ())
        (fun _ a b k => (List.replicate k (a / (a + b)), ()))
        10 3 10 4 2 1 1 42).prob_control_better =
      1 - (bayesian_ab_test (fun _ => ())
        (fun _ a b k => (List.replicate k (a / (a + b)), ()))
        10 3 10 4 2 1 1 42).prob_treatment_better :=
  ⟨fun _ a b k => List.length_replicate k (a / (a + b)),
   by norm_num,
   (bayesian_prob_complement (fun _ => ())
     (fun _ a b k => (List.replicate k (a / (a + b)), ()))
     (fun _ a b k => List.length_replicate k (a / (a + b)))
     10 3 10 4 2 (by norm_num) 1 1 42).1⟩

/-- C8: determinism and request-scoping of the Bayesian engine.  For every
RNG implementation, calling `bayesian_ab_test` twice with the same seed and
inputs yields identical results — posterior sample sequences included —
regardless of the ambient/global RNG stream, which the call neither reads
nor advances, because `np.random.RandomState(seed)` is constructed fresh
inside the call. -/
theorem bayesian_deterministic {σ γ : Type} (init : ℕ → σ)
    (betaSample : σ → ℚ → ℚ → ℕ → List ℚ × σ) (g1 g2 : γ)
    (n_ctrl conv_ctrl n_treat conv_treat n_samples : ℕ)
    (prior_alpha prior_beta : ℚ) (seed : ℕ) :
    (bayesian_ab_test_in init betaSample g1 n_ctrl conv_ctrl n_treat
      conv_treat n_samples prior_alpha prior_beta seed).1 =
      (bayesian_ab_test_in init betaSample g2 n_ctrl conv_ctrl n_treat
        conv_treat n_samples prior_alpha prior_beta seed).1 ∧
    (bayesian_ab_test_in init betaSample g1 n_ctrl conv_ctrl n_treat
      conv_treat n_samples prior_alpha prior_beta seed).2 = g1 :=
  ⟨rfl, rfl⟩

/-- C10: `bonferroni_correction` on an empty p-value list computes
`alpha / 0` and raises `ZeroDivisionError` instead of returning a result;
on every non-empty list it returns normally. -/
theorem bonferroni_empty_raises :
    (∀ alpha : ℚ, bonferroni_correction [] alpha = .error .zeroDivisionError) ∧
    (∀ (ps : List ℚ) (alpha : ℚ), ps ≠ [] →
      ∃ r, bonferroni_correction ps alpha = .ok r) := by
  constructor
  · intro alpha
    rfl
  · intro ps alpha hne
    have hl : ((ps.length : ℕ) : ℚ) ≠ 0 := by
      have h0 : ps.length ≠ 0 := by
        simpa [List.length_eq_zero] using hne
      exact_mod_cast h0
    have hr : bonferroni_correction ps alpha = .ok {
        original_alpha := alpha
        n_tests := ps.length
        adjusted_alpha := pyround 6 (alpha / ps.length)
        results := ps.map (fun p =>
          ⟨pyround 4 p, decide (p < alpha / ps.length)⟩) } := by
      unfold bonferroni_correction pydiv
      simp only [if_neg hl]
      rfl
    exact ⟨_, hr⟩

theorem bonferroni_empty_raises_witness :
    bonferroni_correction [] (1/20) = .error .zeroDivisionError ∧
    ([1/2] : List ℚ) ≠ [] ∧
    ∃ r, bonferroni_correction [1/2] (1/20) = .ok r :=
  ⟨bonferroni_empty_raises.1 (1/20), by simp,
   bonferroni_empty_raises.2 [1/2] (1/20) (by simp)⟩

/-- C6 counterexample: at `alpha = 10⁻⁷ ∈ (0,1)` and the singleton list
`[1/2]`, the *returned* `adjusted_alpha` field is `round(alpha/1, 6) = 0`,
which is neither `alpha / n_tests` nor equal to `alpha`: the claim's
equations fail as stated because the field is rounded to 6 digits. -/
theorem bonferroni_alpha_counterexample :
    bonferroni_correction [1/2] (1/10^7) = .ok {
      original_alpha := 1/10^7
      n_tests := 1
      adjusted_alpha := 0
      results := [{ p_value := 1/2, significant := false }] } ∧
    (0 : ℚ) ≠ (1/10^7) / 1 := by
  constructor
  · with_unfolding_all rfl
  · norm_num

/-- C6 (amended): on every non-empty list and `alpha ∈ (0,1)`, the
returned `adjusted_alpha` field is `round(alpha/n_tests, 6)` (the
significance flags compare against the unrounded `alpha/n_tests`); it is
strictly below `alpha` whenever `n_tests > 1`; for `n_tests = 1` it equals
`round(alpha, 6)` (hence `alpha` itself whenever `alpha` is a multiple of
`10⁻⁶`, as in the concrete scenario); and
`bonferroni_correction([0.02, 0.03], 0.05)` yields `adjusted_alpha =
0.025` with exactly the first p-value flagged significant. -/
theorem bonferroni_adjusted_alpha :
    (∀ (ps : List ℚ) (alpha : ℚ), ps ≠ [] → 0 < alpha → alpha < 1 →
      ∃ r, bonferroni_correction ps alpha = .ok r ∧
        r.n_tests = ps.length ∧
        r.adjusted_alpha = pyround 6 (alpha / ps.length) ∧
        (1 < ps.length → r.adjusted_alpha < alpha) ∧
        (ps.length = 1 → r.adjusted_alpha = pyround 6 alpha)) ∧
    (bonferroni_correction [2/100, 3/100] (5/100) = .ok {
      original_alpha := 5/100
      n_tests := 2
      adjusted_alpha := 25/1000
      results := [{ p_value := 2/100, significant := true },
        { p_value := 3/100, significant := false }] }) := by
  constructor
  · intro ps alpha hne hpos hlt1
    have h0 : ps.length ≠ 0 := by
      simpa [List.length_eq_zero] using hne
    have hl : ((ps.length : ℕ) : ℚ) ≠ 0 := by exact_mod_cast h0
    have hr : bonferroni_correction ps alpha = .ok {
        original_alpha := alpha
        n_tests := ps.length
        adjusted_alpha := pyround 6 (alpha / ps.length)
        results := ps.map (fun p =>
          ⟨pyround 4 p, decide (p < alpha / ps.length)⟩) } := by
      unfold bonferroni_correction pydiv
      simp only [if_neg hl]
      rfl
    refine ⟨_, hr, rfl, rfl, ?_, ?_⟩
    · -- strictly below `alpha` when more than one test
      intro hlen
      have hlenQ : (2 : ℚ) ≤ (ps.length : ℚ) := by exact_mod_cast hlen
      have hx : alpha / (ps.length : ℚ) ≤ alpha / 2 :=
        div_le_div_of_nonneg_left (le_of_lt hpos) (by norm_num) hlenQ
      by_cases hsmall : alpha ≤ 1/10^6
      · have hz : pyround 6 (alpha / (ps.length : ℚ)) = 0 := by
          apply pyround_eq_zero_of
          · exact div_nonneg (le_of_lt hpos) (by positivity)
          · calc alpha / (ps.length : ℚ) ≤ alpha / 2 := hx
              _ ≤ (1/10^6) / 2 := by linarith
              _ = 1 / (2 * 10 ^ 6) := by norm_num
        simpa [hz] using hpos
      · push_neg at hsmall
        calc pyround 6 (alpha / (ps.length : ℚ))
            ≤ alpha / (ps.length : ℚ) + 1 / (2 * 10 ^ 6) := pyround_le 6 _
          _ ≤ alpha / 2 + 1 / (2 * 10 ^ 6) := by linarith
          _ < alpha / 2 + alpha / 2 := by
              have : (1 : ℚ) / (2 * 10 ^ 6) < alpha / 2 := by
                rw [show (1 : ℚ) / (2 * 10 ^ 6) = (1/10^6) / 2 by norm_num]
                linarith
              linarith
          _ = alpha := by ring
    · -- a single test: the returned field is `round(alpha, 6)`
      intro hlen
      rw [hlen]
      norm_num
  · with_unfolding_all rfl

theorem bonferroni_adjusted_alpha_witness :
    (([1/50, 1/50] : List ℚ) ≠ [] ∧ (0 : ℚ) < 1/20 ∧ (1 : ℚ)/20 < 1) ∧
    ∃ r, bonferroni_correction [1/50, 1/50] (1/20) = .ok r ∧
      r.n_tests = ([1/50, 1/50] : List ℚ).length ∧
      r.adjusted_alpha = pyround 6 ((1/20) / ([1/50, 1/50] : List ℚ).length) ∧
      (1 < ([1/50, 1/50] : List ℚ).length → r.adjusted_alpha < 1/20) ∧
      (([1/50, 1/50] : List ℚ).length = 1 → r.adjusted_alpha = pyround 6 (1/20)) :=
  ⟨⟨by simp, by norm_num, by norm_num⟩,
   bonferroni_adjusted_alpha.1 [1/50, 1/50] (1/20) (by simp) (by norm_num)
     (by norm_num)⟩

/-- A degenerate instantiation of the abstracted `proportions_ztest`,
used to evaluate the embedded tests at concrete inputs. -/
def pztest0 : ℚ → ℚ → ℚ → ℚ → ℚ × ℚ := fun _ _ _ _ => (0, 0)

/-- A degenerate instantiation of the NaN-able abstracted
`proportions_ztest` taken by the `z_test` model. -/
def pztest0n : ℚ → ℚ → ℚ → ℚ → Option ℚ × Option ℚ := fun _ _ _ _ => (none, none)

/-- A degenerate instantiation of the abstracted unary numeric library
functions (`np.sqrt`, `math.asin`, `norm.ppf`, `chi2.sf`), used to
evaluate the embedded tests at concrete inputs. -/
def fid : ℚ → ℚ := fun x => x

/-- C2: at the failing input — control group present with conversion rate
exactly 0 (one control trial, no conversions) — `z_test` does *not* fail
and does *not* flag the undefined relative lift: it silently returns
`relative_diff_pct = 0.0` (the `else 0.0` branch of line 47 of
`src/statistics.py`), for every instantiation of the abstract statistics
stubs; `run_ab_test` on the same data does fail (`ZeroDivisionError` from
`diff / p1`), as the claim demands. -/
theorem z_test_zero_control_substitutes_zero :
    (∀ pztest sqrtQ,
      (z_test pztest sqrtQ [⟨"control", 0⟩, ⟨"treatment", 1⟩]
        "control" "treatment").control_conv = some 0 ∧
      (z_test pztest sqrtQ [⟨"control", 0⟩, ⟨"treatment", 1⟩]
        "control" "treatment").relative_diff_pct = some 0) ∧
    run_ab_test pztest0 fid fid fid [⟨"control", 0⟩, ⟨"treatment", 1⟩]
      (1/20) = .error .zeroDivisionError := by
  refine ⟨fun pztest sqrtQ => ⟨?_, ?_⟩, ?_⟩ <;> with_unfolding_all rfl

/-- C3 counterexample: on a dataset whose treatment group has zero trials
(a single control row), the claim fails twice over.  `run_ab_test` does
fail — but with `ZeroDivisionError` from the pure-Python rate division,
not with the `InsufficientDataError` the claim names (no exception class
of that name exists anywhere in the repository); and `z_test` does not
fail at all: its NumPy scalar division yields NaN with a RuntimeWarning,
and it returns a dictionary whose treatment rate is NaN (`none`) while
the control rate is the ordinary value 1. -/
theorem insufficient_data_counterexample :
    (run_ab_test pztest0 fid fid fid [⟨"control", 1⟩] (1/20) =
      .error .zeroDivisionError ∧
     run_ab_test pztest0 fid fid fid [⟨"control", 1⟩] (1/20) ≠
      .error .insufficientDataError) ∧
    ((z_test pztest0n fid [⟨"control", 1⟩] "control" "treatment").treatment_conv
      = none ∧
     (z_test pztest0n fid [⟨"control", 1⟩] "control" "treatment").control_conv
      = some 1) := by
  have h1 : run_ab_test pztest0 fid fid fid [⟨"control", 1⟩] (1/20) =
      .error .zeroDivisionError := by with_unfolding_all rfl
  refine ⟨⟨h1, ?_⟩, ?_, ?_⟩
  · rw [h1]
    simp
  · with_unfolding_all rfl
  · with_unfolding_all rfl

/-- C3 (amended): whenever either group has zero rows, `run_ab_test`
fails by raising `ZeroDivisionError` at the conversion-rate division (its
`int()` casts make that division pure Python), while `z_test` does not
raise at all: its pandas/NumPy scalar rate division produces NaN (with a
RuntimeWarning only) and the function returns a dictionary in which the
empty group's conversion rate is NaN.  This holds for every instantiation
of the abstracted library functions; no `InsufficientDataError` exists
anywhere in the repository. -/
theorem zero_trials_raises (pztest : ℚ → ℚ → ℚ → ℚ → ℚ × ℚ)
    (pztestN : ℚ → ℚ → ℚ → ℚ → Option ℚ × Option ℚ)
    (sqrtQ asinQ ppfQ : ℚ → ℚ) (df : List Row) (alpha : ℚ)
    (h : (df.filter (fun r => r.group == "control")).length = 0 ∨
         (df.filter (fun r => r.group == "treatment")).length = 0) :
    run_ab_test pztest sqrtQ asinQ ppfQ df alpha =
      .error .zeroDivisionError ∧
    ((df.filter (fun r => r.group == "control")).length = 0 →
      (z_test pztestN sqrtQ df "control" "treatment").control_conv = none) ∧
    ((df.filter (fun r => r.group == "treatment")).length = 0 →
      (z_test pztestN sqrtQ df "control" "treatment").treatment_conv = none) := by
  refine ⟨?_, ?_, ?_⟩
  · by_cases hc : (df.filter (fun r => r.group == "control")).length = 0
    · unfold run_ab_test pydiv
      simp only [List.length_map, hc, Nat.cast_zero]
      rfl
    · have ht : (df.filter (fun r => r.group == "treatment")).length = 0 := by
        rcases h with h | h
        · exact absurd h hc
        · exact h
      have hcQ : (((df.filter (fun r => r.group == "control")).length : ℕ) : ℚ) ≠ 0 := by
        exact_mod_cast hc
      unfold run_ab_test pydiv
      simp only [List.length_map, ht, Nat.cast_zero, if_neg hcQ]
      rfl
  · intro hc
    unfold z_test npdiv0
    simp only [hc, Nat.cast_zero]
    rfl
  · intro ht
    unfold z_test npdiv0
    simp only [ht, Nat.cast_zero]
    rfl

theorem zero_trials_raises_witness :
    ((([⟨"control", 1⟩] : List Row).filter
        (fun r => r.group == "control")).length = 0 ∨
     (([⟨"control", 1⟩] : List Row).filter
        (fun r => r.group == "treatment")).length = 0) ∧
    run_ab_test pztest0 fid fid fid [⟨"control", 1⟩] (1/20) =
      .error .zeroDivisionError ∧
    ((([⟨"control", 1⟩] : List Row).filter
        (fun r => r.group == "treatment")).length = 0 →
      (z_test pztest0n fid [⟨"control", 1⟩] "control" "treatment").treatment_conv
        = none) :=
  ⟨Or.inr (by with_unfolding_all rfl),
   (zero_trials_raises pztest0 pztest0n fid fid fid [⟨"control", 1⟩] (1/20)
     (Or.inr (by with_unfolding_all rfl))).1,
   (zero_trials_raises pztest0 pztest0n fid fid fid [⟨"control", 1⟩] (1/20)
     (Or.inr (by with_unfolding_all rfl))).2.2⟩

/-- C1: at observed counts (60, 40) with the default 50/50 split,
`srm_check` returns `chi2 = 18/11 ≈ 1.636` — the Yates-corrected Pearson
statistic of the stacked 2×2 *contingency* table `[[60,40],[50,50]]` that
`chi2_contingency([observed, expected])` actually tests — whereas the
goodness-of-fit statistic against the expected counts `0.5 × total` that
the claim (and spec §4.3) prescribes is `(60-50)²/50 + (40-50)²/50 = 4`.
The code does not compute the claimed statistic. -/
theorem srm_check_not_gof :
    (∃ r, srm_check fid 60 40 (1/2) (1/2) = .ok r ∧ r.chi2 = 18/11 ∧
      r.p_value = fid (18/11)) ∧
    srm_gof_chi2 60 40 (1/2) (1/2) = 4 ∧ ((18 : ℚ)/11 ≠ 4) := by
  refine ⟨⟨{
    control_count := 60
    treatment_count := 40
    chi2 := 18/11
    p_value := fid (18/11) }, ?_, rfl, rfl⟩, ?_, ?_⟩
  · with_unfolding_all rfl
  · with_unfolding_all rfl
  · with_unfolding_all decide

theorem insertIdxBy_perm (le : ℕ → ℕ → Bool) (i : ℕ) :
    ∀ l : List ℕ, (insertIdxBy le i l).Perm (i :: l) := by
  intro l
  induction l with
  | nil => simp [insertIdxBy]
  | cons j rest ih =>
    unfold insertIdxBy
    by_cases hc : le j i
    · rw [if_pos hc]
      exact (ih.cons j).trans (List.Perm.swap i j rest)
    · rw [if_neg hc]

theorem foldl_insert_perm (le : ℕ → ℕ → Bool) :
    ∀ (l acc : List ℕ),
      (l.foldl (fun a i => insertIdxBy le i a) acc).Perm (acc ++ l) := by
  intro l
  induction l with
  | nil => intro acc; simp
  | cons i rest ih =>
    intro acc
    have h1 := ih (insertIdxBy le i acc)
    have h2 : (insertIdxBy le i acc ++ rest).Perm ((i :: acc) ++ rest) :=
      (insertIdxBy_perm le i acc).append_right rest
    have h3 : ((i :: acc) ++ rest).Perm (acc ++ i :: rest) :=
      List.perm_middle.symm
    exact (h1.trans h2).trans h3

theorem argsort_perm (ps : List ℚ) :
    (argsort ps).Perm (List.range ps.length) := by
  unfold argsort
  simpa using foldl_insert_perm _ (List.range ps.length) []

theorem insertIdxBy_pairwise (P : ℕ → ℕ → Prop) (le : ℕ → ℕ → Bool)
    (hle : ∀ a b, le a b = true ↔ P a b)
    (htot : ∀ a b, P a b ∨ P b a)
    (htrans : ∀ a b c, P a b → P b c → P a c) (i : ℕ) :
    ∀ l : List ℕ, l.Pairwise P → (insertIdxBy le i l).Pairwise P := by
  intro l
  induction l with
  | nil =>
    intro _
    simp [insertIdxBy]
  | cons j rest ih =>
    intro hp
    rw [List.pairwise_cons] at hp
    obtain ⟨hj, hrest⟩ := hp
    unfold insertIdxBy
    by_cases hc : le j i
    · rw [if_pos hc, List.pairwise_cons]
      constructor
      · intro b hb
        have hmem : b ∈ i :: rest := ((insertIdxBy_perm le i rest).mem_iff).mp hb
        rcases List.mem_cons.mp hmem with hbi | hbr
        · subst hbi
          exact (hle j b).mp hc
        · exact hj b hbr
      · exact ih hrest
    · rw [if_neg hc]
      have hij : P i j := by
        rcases htot i j with h | h
        · exact h
        · exact absurd ((hle j i).mpr h) (by simpa using hc)
      rw [List.pairwise_cons]
      constructor
      · intro b hb
        rcases List.mem_cons.mp hb with hbj | hbr
        · subst hbj
          exact hij
        · exact htrans i j b hij (hj b hbr)
      · exact List.pairwise_cons.mpr ⟨hj, hrest⟩

theorem argsort_pairwise (ps : List ℚ) :
    (argsort ps).Pairwise (fun a b => ps.getD a 0 ≤ ps.getD b 0) := by
  unfold argsort
  have key : ∀ (l acc : List ℕ),
      acc.Pairwise (fun a b => ps.getD a 0 ≤ ps.getD b 0) →
      (l.foldl (fun a i =>
        insertIdxBy (fun a b => decide (ps.getD a 0 ≤ ps.getD b 0)) i a)
        acc).Pairwise (fun a b => ps.getD a 0 ≤ ps.getD b 0) := by
    intro l
    induction l with
    | nil =>
      intro acc h
      simpa using h
    | cons i rest ih =>
      intro acc h
      refine ih _ (insertIdxBy_pairwise _ _ ?_ ?_ ?_ i acc h)
      · intro a b
        simp
      · intro a b
        exact le_total _ _
      · intro a b c hab hbc
        exact le_trans hab hbc
  exact key (List.range ps.length) [] List.Pairwise.nil

theorem length_foldl_set (f : ℕ × ℕ → ℚ) :
    ∀ (pairs : List (ℕ × ℕ)) (init : List ℚ),
      (pairs.foldl (fun acc ri => acc.set ri.2 (f ri)) init).length =
        init.length := by
  intro pairs
  induction pairs with
  | nil =>
    intro init
    rfl
  | cons p rest ih =>
    intro init
    rw [List.foldl_cons, ih, List.length_set]

theorem getD_foldl_set_not_mem (f : ℕ × ℕ → ℚ) (j : ℕ) :
    ∀ (pairs : List (ℕ × ℕ)) (init : List ℚ),
      (∀ p ∈ pairs, p.2 ≠ j) →
      (pairs.foldl (fun acc ri => acc.set ri.2 (f ri)) init).getD j 0 =
        init.getD j 0 := by
  intro pairs
  induction pairs with
  | nil =>
    intro init _
    rfl
  | cons p rest ih =>
    intro init hni
    rw [List.foldl_cons, ih _ (fun q hq => hni q (List.mem_cons_of_mem p hq)),
      List.getD_eq_getElem?_getD, List.getD_eq_getElem?_getD,
      List.getElem?_set_ne (hni p (List.mem_cons_self p rest))]

theorem getD_foldl_set_mem (f : ℕ × ℕ → ℚ) :
    ∀ (pairs : List (ℕ × ℕ)) (init : List ℚ) (p : ℕ × ℕ),
      p ∈ pairs → (pairs.map Prod.snd).Nodup → p.2 < init.length →
      (pairs.foldl (fun acc ri => acc.set ri.2 (f ri)) init).getD p.2 0 =
        f p := by
  intro pairs
  induction pairs with
  | nil =>
    intro init p hp _ _
    exact absurd hp (List.not_mem_nil p)
  | cons q rest ih =>
    intro init p hp hnd hlt
    rw [List.map_cons, List.nodup_cons] at hnd
    obtain ⟨hq, hnd'⟩ := hnd
    rcases List.mem_cons.mp hp with hpq | hpr
    · subst hpq
      rw [List.foldl_cons,
        getD_foldl_set_not_mem f p.2 rest _
          (fun r hr he => hq (he ▸ List.mem_map_of_mem Prod.snd hr)),
        List.getD_eq_getElem?_getD, List.getElem?_set_self hlt]
      rfl
    · rw [List.foldl_cons]
      exact ih _ p hpr hnd' (by rw [List.length_set]; exact hlt)

/-- C9: `holm_correction` writes, through the argsort order (a permutation
of the positions `0, …, n-1`, ascending in p-value), the adjusted value
`min(1, p_(r) · (n - r))` into the original position of the p-value of
ascending rank `r`; and no running-maximum monotonicity is enforced: on
`[0.01, 0.011]` it returns `[0.02, 0.011]`, where the larger p-value
receives the *smaller* adjusted value (textbook Holm would return
`[0.02, 0.02]`). -/
theorem holm_correction_spec :
    (∀ ps : List ℚ,
      (holm_correction ps).length = ps.length ∧
      (argsort ps).Perm (List.range ps.length) ∧
      (argsort ps).Pairwise (fun a b => ps.getD a 0 ≤ ps.getD b 0) ∧
      (∀ r, r < ps.length →
        (holm_correction ps).getD ((argsort ps).getD r 0) 0 =
          min (((ps.length - r : ℕ) : ℚ) *
            ps.getD ((argsort ps).getD r 0) 0) 1)) ∧
    (holm_correction [1/100, 11/1000] = [2/100, 11/1000] ∧
      (11 : ℚ)/1000 < 2/100) := by
  constructor
  · intro ps
    have hperm := argsort_perm ps
    have hlen : (argsort ps).length = ps.length := by
      simpa using hperm.length_eq
    refine ⟨?_, hperm, argsort_pairwise ps, ?_⟩
    · unfold holm_correction
      rw [length_foldl_set]
      simp
    · intro r hr
      have hr' : r < (argsort ps).length := by
        rw [hlen]
        exact hr
      have hgetD : (argsort ps).getD r 0 = (argsort ps)[r] :=
        List.getD_eq_getElem _ 0 hr'
      have hmem : (argsort ps)[r] ∈ argsort ps := List.getElem_mem hr'
      have hidxlt : (argsort ps)[r] < ps.length :=
        List.mem_range.mp (hperm.mem_iff.mp hmem)
      have henumlen : r < (argsort ps).enum.length := by
        simpa using hr'
      have hpair : (r, (argsort ps)[r]) ∈ (argsort ps).enum := by
        rw [← List.getElem_enum _ _ henumlen]
        exact List.getElem_mem henumlen
      have hnd : ((argsort ps).enum.map Prod.snd).Nodup := by
        rw [List.enum_map_snd]
        exact hperm.nodup_iff.mpr (List.nodup_range _)
      unfold holm_correction
      rw [hgetD]
      exact getD_foldl_set_mem
        (fun ri => min (((ps.length - ri.1 : ℕ) : ℚ) * ps.getD ri.2 0) 1)
        ((argsort ps).enum) (List.replicate ps.length 0)
        (r, (argsort ps)[r]) hpair hnd (by simpa using hidxlt)
  · constructor
    · with_unfolding_all rfl
    · norm_num

theorem holm_correction_spec_witness :
    0 < ([1/100, 11/1000] : List ℚ).length ∧
    (holm_correction [1/100, 11/1000]).getD
      ((argsort [1/100, 11/1000]).getD 0 0) 0 =
      min (((([1/100, 11/1000] : List ℚ).length - 0 : ℕ) : ℚ) *
        ([1/100, 11/1000] : List ℚ).getD
          ((argsort [1/100, 11/1000]).getD 0 0) 0) 1 :=
  ⟨by norm_num,
   (holm_correction_spec.1 [1/100, 11/1000]).2.2.2 0 (by norm_num)⟩

/-- Round half to even on `ℝ`: `rhe` transported to the exact-real
semantics used for `power_analysis`. -/
noncomputable def rheR (x : ℝ) : ℤ :=
  if x - ⌊x⌋ < 1/2 then ⌊x⌋
  else if 1/2 < x - ⌊x⌋ then ⌊x⌋ + 1
  else if Even ⌊x⌋ then ⌊x⌋ else ⌊x⌋ + 1

/-- Python's `round(x, n)` on exact reals. -/
noncomputable def pyroundR (n : ℕ) (x : ℝ) : ℝ := (rheR (x * 10 ^ n) : ℝ) / 10 ^ n

/-- The sample-size expression of `power_analysis` (`src/statistics.py`,
lines 95-100 and, with `mde := mid`, lines 112-116):
`((z_alpha·√(2·p̄(1-p̄)) + z_beta·√(p1(1-p1)+p2(1-p2))) / mde)²` with
`p1 = baseline`, `p2 = baseline + mde`, `p̄ = (p1+p2)/2`. -/
noncomputable def n_required (za zb baseline mde : ℝ) : ℝ :=
  let p1 := baseline
  let p2 := baseline + mde
  let p_avg := (p1 + p2) / 2
  let se_null := Real.sqrt (2 * p_avg * (1 - p_avg))
  let se_alt := Real.sqrt (p1 * (1 - p1) + p2 * (1 - p2))
  ((za * se_null + zb * se_alt) / mde) ^ 2

/-- One iteration of the binary search of `power_analysis` (lines
110-120): compute the midpoint and shrink the bracket according to
whether the required sample size at the midpoint still exceeds the target. -/
noncomputable def bisectStepR (cond : ℝ → Prop) [DecidablePred cond]
    (lh : ℝ × ℝ) : ℝ × ℝ :=
  let mid := (lh.1 + lh.2) / 2
  if cond mid then (mid, lh.2) else (lh.1, mid)

/-- `k` iterations of the binary search bracket update. -/
noncomputable def bisectR (cond : ℝ → Prop) [DecidablePred cond] :
    ℕ → ℝ × ℝ → ℝ × ℝ
  | 0, lh => lh
  | k + 1, lh => bisectR cond k (bisectStepR cond lh)

/-- The dictionary returned by `power_analysis` (`src/statistics.py`,
lines 70-124); `Option` fields mirror the keys that are present only when
`mde` (forward) or `n_per_group` (reverse) is supplied. -/
structure PowerResults where
  baseline_rate : ℝ
  alpha : ℝ
  power : ℝ
  mde : Option ℝ
  required_n_per_group : Option ℤ
  required_n_total : Option ℤ
  n_per_group : Option ℤ
  detectable_mde : Option ℝ
  detectable_mde_pct : Option ℝ

/-- `power_analysis` from `src/statistics.py`.  `ppf` abstracts the
transcendental `scipy.stats.norm.ppf`; `z_alpha = ppf(1 - alpha/2)` and
`z_beta = ppf(power)` exactly as in lines 88-89.  The reverse direction
runs the 100-iteration bisection of lines 108-120 over `(0.0001, 0.10)`:
the loop's final `mid` is the midpoint of the bracket left after 99
updates, and `detectable_mde = round(mid, 6)`,
`detectable_mde_pct = round(mid / baseline_rate * 100, 2)`. -/
noncomputable def power_analysis (ppf : ℝ → ℝ) (baseline_rate : ℝ)
    (mde : Option ℝ) (alpha power : ℝ) (n_per_group : Option ℤ) :
    PowerResults :=
  let za := ppf (1 - alpha / 2)
  let zb := ppf power
  let req : Option ℤ := mde.map (fun m => ⌈n_required za zb baseline_rate m⌉)
  let reverse : Option (ℝ × ℝ) := n_per_group.map (fun (n : ℤ) =>
    let lh := bisectR (fun mid => n_required za zb baseline_rate mid > (n : ℝ))
      99 (1/10000, 1/10)
    let mid := (lh.1 + lh.2) / 2
    (pyroundR 6 mid, pyroundR 2 (mid / baseline_rate * 100)))
  { baseline_rate := baseline_rate
    alpha := alpha
    power := power
    mde := mde
    required_n_per_group := req
    required_n_total := req.map (fun k => k * 2)
    n_per_group := n_per_group
    detectable_mde := reverse.map (fun p => p.1)
    detectable_mde_pct := reverse.map (fun p => p.2) }

/-- Integer mirror of the bisection: the state `(lo, hi, den)` represents
the bracket `(lo/den, hi/den)`; each step doubles the common denominator,
so midpoints stay integer-representable and the whole search is exactly
computable. -/
def bisectZ (cond : ℤ → ℤ → Bool) : ℕ → ℤ × ℤ × ℤ → ℤ × ℤ × ℤ
  | 0, s => s
  | k + 1, (lo, hi, den) =>
    let den2 := 2 * den
    let mid := lo + hi
    if cond mid den2 then bisectZ cond k (mid, 2 * hi, den2)
    else bisectZ cond k (2 * lo, mid, den2)

/-- The real bisection agrees with its integer mirror whenever the branch
condition does, and the bracket invariants `0 < lo ≤ hi ≤ den/10` are
maintained. -/
theorem bisectR_eq_bisectZ (cond : ℝ → Prop) [DecidablePred cond]
    (condZ : ℤ → ℤ → Bool)
    (h : ∀ m d : ℤ, 0 < d → 0 < m → 10 * m ≤ d →
      (cond ((m : ℝ) / (d : ℝ)) ↔ condZ m d = true)) :
    ∀ (k : ℕ) (lo hi den : ℤ), 0 < den → 0 < lo → lo ≤ hi → 10 * hi ≤ den →
      bisectR cond k ((lo : ℝ) / (den : ℝ), (hi : ℝ) / (den : ℝ)) =
        (((bisectZ condZ k (lo, hi, den)).1 : ℝ) /
          ((bisectZ condZ k (lo, hi, den)).2.2 : ℝ),
         ((bisectZ condZ k (lo, hi, den)).2.1 : ℝ) /
          ((bisectZ condZ k (lo, hi, den)).2.2 : ℝ)) ∧
      0 < (bisectZ condZ k (lo, hi, den)).2.2 ∧
      0 < (bisectZ condZ k (lo, hi, den)).1 ∧
      (bisectZ condZ k (lo, hi, den)).1 ≤ (bisectZ condZ k (lo, hi, den)).2.1 ∧
      10 * (bisectZ condZ k (lo, hi, den)).2.1 ≤
        (bisectZ condZ k (lo, hi, den)).2.2 := by
  intro k
  induction k with
  | zero =>
    intro lo hi den hden hlo hlohi hhiden
    exact ⟨rfl, hden, hlo, hlohi, hhiden⟩
  | succ k ih =>
    intro lo hi den hden hlo hlohi hhiden
    have hdenR : ((den : ℝ)) ≠ 0 := by
      exact_mod_cast (ne_of_gt hden)
    have hmid : ((lo : ℝ) / den + (hi : ℝ) / den) / 2 =
        ((lo + hi : ℤ) : ℝ) / ((2 * den : ℤ) : ℝ) := by
      push_cast
      rw [div_add_div_same, div_div, mul_comm ((den : ℝ)) 2]
    have hhi2 : (hi : ℝ) / den = ((2 * hi : ℤ) : ℝ) / ((2 * den : ℤ) : ℝ) := by
      push_cast
      rw [mul_div_mul_left _ _ (by norm_num : (2:ℝ) ≠ 0)]
    have hlo2 : (lo : ℝ) / den = ((2 * lo : ℤ) : ℝ) / ((2 * den : ℤ) : ℝ) := by
      push_cast
      rw [mul_div_mul_left _ _ (by norm_num : (2:ℝ) ≠ 0)]
    have hinv : 0 < 2 * den ∧ 0 < lo + hi ∧ 10 * (lo + hi) ≤ 2 * den := by
      refine ⟨by omega, by omega, by omega⟩
    simp only [bisectR, bisectZ, bisectStepR]
    rw [hmid]
    by_cases hcond : cond (((lo + hi : ℤ) : ℝ) / ((2 * den : ℤ) : ℝ))
    · have hcz : condZ (lo + hi) (2 * den) = true :=
        (h (lo + hi) (2 * den) hinv.1 hinv.2.1 hinv.2.2).mp hcond
      rw [if_pos hcond, if_pos hcz, hhi2]
      exact ih (lo + hi) (2 * hi) (2 * den) hinv.1 hinv.2.1 (by omega) (by omega)
    · have hcz : condZ (lo + hi) (2 * den) = false := by
        rcases Bool.eq_false_or_eq_true (condZ (lo + hi) (2 * den)) with ht | hf
        · exact absurd ((h (lo + hi) (2 * den) hinv.1 hinv.2.1 hinv.2.2).mpr ht)
            hcond
        · exact hf
      rw [if_neg hcond, hcz, if_neg (by simp), hlo2]
      exact ih (2 * lo) (lo + hi) (2 * den) hinv.1 (by omega) (by omega) (by omega)

/-- At `z_alpha = 1`, `z_beta = 0`, `baseline = 1/2`, the bisection's
branch condition `n_required(mid) > 200` is, for bracket points
`mid = m/d ∈ (0, 1/10]`, exactly the integer test `401·m² < d²`
(because `n_required` collapses to `((1-mid²)/2)/mid²`). -/
theorem n_required_cond_equiv (m d : ℤ) (hd : 0 < d) (hm : 0 < m)
    (hmd : 10 * m ≤ d) :
    (n_required 1 0 (1/2) ((m : ℝ) / (d : ℝ)) > (200 : ℝ)) ↔
      ((fun m d => decide (401 * m ^ 2 < d ^ 2)) m d = true) := by
  have hdR : (0:ℝ) < (d : ℝ) := by exact_mod_cast hd
  have hmR : (0:ℝ) < (m : ℝ) := by exact_mod_cast hm
  have hx0 : (0:ℝ) < (m : ℝ) / (d : ℝ) := div_pos hmR hdR
  have hx110 : (m : ℝ) / (d : ℝ) ≤ 1/10 := by
    rw [div_le_div_iff hdR (by norm_num)]
    have : (10:ℝ) * m ≤ (d : ℝ) := by exact_mod_cast hmd
    linarith
  set x : ℝ := (m : ℝ) / (d : ℝ) with hxdef
  have key : n_required 1 0 (1/2) x = ((1 - x^2)/2) / x^2 := by
    simp only [n_required, one_mul, zero_mul, add_zero]
    rw [show 2 * ((1/2 + (1/2 + x))/2) * (1 - (1/2 + (1/2 + x))/2)
        = (1 - x^2)/2 from by ring]
    rw [div_pow, Real.sq_sqrt (by nlinarith : (0:ℝ) ≤ (1 - x^2)/2)]
  rw [key, gt_iff_lt, lt_div_iff (pow_pos hx0 2),
    lt_div_iff (by norm_num : (0:ℝ) < 2), decide_eq_true_eq]
  constructor
  · intro h1
    have h2 : 401 * x^2 < 1 := by linarith
    rw [hxdef, div_pow, ← mul_div_assoc, div_lt_one (by positivity)] at h2
    exact_mod_cast h2
  · intro h1
    have h2 : (401:ℝ) * (m:ℝ)^2 < (d:ℝ)^2 := by exact_mod_cast h1
    have h3 : 401 * x^2 < 1 := by
      rw [hxdef, div_pow, ← mul_div_assoc, div_lt_one (by positivity)]
      exact h2
    linarith

/-- Evaluation of `round(M/D, 6)` in the round-up case, reduced to integer
inequalities on `M`, `D` and the floor `f` of `M·10⁶/D`. -/
theorem pyroundR_divUp (M D f : ℤ) (hD : 0 < D)
    (h1 : D * f ≤ M * 10 ^ 6) (h2 : M * 10 ^ 6 < D * (f + 1))
    (h3 : D < 2 * (M * 10 ^ 6 - D * f)) :
    pyroundR 6 ((M : ℝ) / (D : ℝ)) = ((f + 1 : ℤ) : ℝ) / 10 ^ 6 := by
  have hDR : (0:ℝ) < (D : ℝ) := by exact_mod_cast hD
  have hx6 : (M : ℝ) / (D : ℝ) * 10 ^ 6 = ((M * 10 ^ 6 : ℤ) : ℝ) / (D : ℝ) := by
    push_cast
    ring
  have hfloor : ⌊((M * 10 ^ 6 : ℤ) : ℝ) / (D : ℝ)⌋ = f := by
    rw [Int.floor_eq_iff]
    constructor
    · rw [le_div_iff hDR]
      have : (D:ℝ) * f ≤ (M:ℝ) * 10 ^ 6 := by exact_mod_cast h1
      push_cast
      linarith
    · rw [div_lt_iff hDR]
      have : (M:ℝ) * 10 ^ 6 < (D:ℝ) * (f + 1) := by exact_mod_cast h2
      push_cast
      linarith
  have hdiff : ((M * 10 ^ 6 : ℤ) : ℝ) / (D : ℝ) - (f : ℝ) =
      ((M * 10 ^ 6 - D * f : ℤ) : ℝ) / (D : ℝ) := by
    rw [eq_div_iff (ne_of_gt hDR)]
    push_cast
    field_simp
  have hfrac : 1/2 < ((M * 10 ^ 6 : ℤ) : ℝ) / (D : ℝ) - (f : ℝ) := by
    rw [hdiff, lt_div_iff hDR]
    have : (D:ℝ) < 2 * ((M:ℝ) * 10 ^ 6 - (D:ℝ) * f) := by exact_mod_cast h3
    push_cast
    linarith
  unfold pyroundR rheR
  rw [hx6, hfloor, if_neg (by linarith), if_pos hfrac]

/-- A concrete instantiation of the abstracted `norm.ppf` for the C4
instance: `ppf0(1/2) = 0` (the true value of `Φ⁻¹(1/2)`) and `ppf0 = 1`
elsewhere.  The pair `(z_alpha, z_beta) = (1, 0)` that it produces at
`alpha = 1/3`, `power = 1/2` is realised by the true `norm.ppf` at
`alpha = 2(1 - Φ(1)) ≈ 0.3173 ∈ (0,1)`, `power = 1/2`: the claim
quantifies over all `alpha, power ∈ (0,1)`, and
`(alpha, power) ↦ (z_alpha, z_beta)` maps onto `(0,∞) × ℝ`. -/
noncomputable def ppf0 : ℝ → ℝ := fun x => if x = 1/2 then 0 else 1

theorem ppf0_za : ppf0 (1 - (1/3) / 2) = 1 := by
  unfold ppf0
  rw [if_neg (by norm_num)]

theorem ppf0_zb : ppf0 (1/2) = 0 := by
  unfold ppf0
  rw [if_pos rfl]

theorem power_forward_eval :
    (power_analysis ppf0 (1/2) (some ((1:ℝ)/20)) (1/3) (1/2)
      none).required_n_per_group = some 200 := by
  simp only [power_analysis, Option.map_some', ppf0_za, ppf0_zb]
  have hval : n_required 1 0 (1/2) (1/20) = 399/2 := by
    simp only [n_required, one_mul, zero_mul, add_zero]
    rw [show 2 * ((1/2 + (1/2 + (1/20:ℝ)))/2) * (1 - (1/2 + (1/2 + (1/20:ℝ)))/2)
        = (399:ℝ)/800 from by norm_num]
    rw [div_pow, Real.sq_sqrt (by norm_num : (0:ℝ) ≤ (399:ℝ)/800)]
    norm_num
  rw [hval]
  have hceil : ⌈(399:ℝ)/2⌉ = 200 := by
    rw [Int.ceil_eq_iff]
    constructor <;> norm_num
  rw [hceil]

theorem power_reverse_eval :
    (power_analysis ppf0 (1/2) none (1/3) (1/2) (some (200:ℤ))).detectable_mde =
      some ((49938 : ℝ) / 1000000) := by
  simp only [power_analysis, Option.map_some', ppf0_za, ppf0_zb,
    show (((200:ℤ)) : ℝ) = (200:ℝ) from by norm_num]
  have hcong := bisectR_eq_bisectZ
    (fun mid => n_required 1 0 (1/2) mid > (200:ℝ))
    (fun m d => decide (401 * m ^ 2 < d ^ 2))
    (fun m d hd hm hmd => n_required_cond_equiv m d hd hm hmd)
    99 1 1000 10000 (by norm_num) (by norm_num) (by norm_num) (by norm_num)
  have hstart : ((1:ℝ)/10000, (1:ℝ)/10) =
      (((1:ℤ) : ℝ) / ((10000:ℤ) : ℝ), ((1000:ℤ) : ℝ) / ((10000:ℤ) : ℝ)) := by
    norm_num
  rw [hstart, hcong.1]
  have hDpos := hcong.2.1
  have hmid2 : ((((bisectZ (fun m d => decide (401 * m ^ 2 < d ^ 2)) 99
        (1, 1000, 10000)).1 : ℤ) : ℝ) /
        (((bisectZ (fun m d => decide (401 * m ^ 2 < d ^ 2)) 99
        (1, 1000, 10000)).2.2 : ℤ) : ℝ) +
      (((bisectZ (fun m d => decide (401 * m ^ 2 < d ^ 2)) 99
        (1, 1000, 10000)).2.1 : ℤ) : ℝ) /
        (((bisectZ (fun m d => decide (401 * m ^ 2 < d ^ 2)) 99
        (1, 1000, 10000)).2.2 : ℤ) : ℝ)) / 2 =
      (((bisectZ (fun m d => decide (401 * m ^ 2 < d ^ 2)) 99
        (1, 1000, 10000)).1 +
        (bisectZ (fun m d => decide (401 * m ^ 2 < d ^ 2)) 99
        (1, 1000, 10000)).2.1 : ℤ) : ℝ) /
      ((2 * (bisectZ (fun m d => decide (401 * m ^ 2 < d ^ 2)) 99
        (1, 1000, 10000)).2.2 : ℤ) : ℝ) := by
    push_cast
    rw [div_add_div_same, div_div, mul_comm]
  rw [hmid2, pyroundR_divUp _ _ 49937 (by omega)
    (by with_unfolding_all decide) (by with_unfolding_all decide)
    (by with_unfolding_all decide)]
  norm_num

theorem n_required_half (x : ℝ) (hx : 0 ≤ 1 - x ^ 2) :
    n_required 1 0 (1/2) x = ((1 - x ^ 2)/2) / x ^ 2 := by
  simp only [n_required, one_mul, zero_mul, add_zero]
  rw [show 2 * ((1/2 + (1/2 + x))/2) * (1 - (1/2 + (1/2 + x))/2)
      = (1 - x ^ 2)/2 from by ring]
  rw [div_pow, Real.sq_sqrt (by linarith : (0:ℝ) ≤ (1 - x ^ 2)/2)]

/-- C4 counterexample: at `baseline = 0.5`, `mde = 0.05 ∈ (0.0001, 0.10)`
(with `z_alpha = 1`, `z_beta = 0`, realised by `alpha ≈ 0.3173`,
`power = 0.5`), the forward direction yields `n_required = 199.5`, ceiled
to `required_n_per_group = 200`; the reverse direction at
`n_per_group = 200` returns `detectable_mde = 0.049938`, which differs
from the original `mde = 0.05` by `6.2·10⁻⁵` — about 27 orders of
magnitude more than the precision `(0.10 - 0.0001)/2¹⁰⁰ ≈ 7.9·10⁻³²` of
the 100-iteration bisection.  The round-trip is *not* accurate to
bisection precision. -/
theorem power_round_trip_counterexample :
    (power_analysis ppf0 (1/2) (some ((1:ℝ)/20)) (1/3) (1/2)
      none).required_n_per_group = some 200 ∧
    (power_analysis ppf0 (1/2) none (1/3) (1/2)
      (some (200:ℤ))).detectable_mde = some ((49938 : ℝ)/1000000) ∧
    ¬ (|(49938 : ℝ)/1000000 - 1/20| ≤ ((1:ℝ)/10 - 1/10000) / 2 ^ 100) := by
  refine ⟨power_forward_eval, power_reverse_eval, ?_⟩
  have habs : |(49938 : ℝ)/1000000 - 1/20| = 62/1000000 := by
    rw [show (49938 : ℝ)/1000000 - 1/20 = -(62/1000000) from by norm_num,
      abs_neg, abs_of_pos (by norm_num)]
  rw [habs]
  intro h
  have h2 : ((1:ℝ)/10 - 1/10000)/2 ^ 100 < 62/1000000 := by norm_num
  linarith

/-- C4 (amended, at the counterexample instance): the round-trip recovers
the effect size of the *ceiled* sample size, not the original `mde`.  At
`baseline = 0.5`, `mde = 0.05`, `z_alpha = 1`, `z_beta = 0`, the forward
direction returns `required_n_per_group = ⌈199.5⌉ = 200`; the reverse
direction at `n_per_group = 200` returns `detectable_mde = 0.049938`,
which lies within `10⁻⁶` of `1/√401` — the exact solution of
`n_required(m) = 200` — and undershoots the original `mde` by exactly
`0.000062`, far beyond the bisection precision. -/
theorem power_round_trip_ceil :
    (power_analysis ppf0 (1/2) (some ((1:ℝ)/20)) (1/3) (1/2)
      none).required_n_per_group = some 200 ∧
    (power_analysis ppf0 (1/2) none (1/3) (1/2)
      (some (200:ℤ))).detectable_mde = some ((49938 : ℝ)/1000000) ∧
    n_required 1 0 (1/2) ((Real.sqrt 401)⁻¹) = 200 ∧
    |(49938 : ℝ)/1000000 - (Real.sqrt 401)⁻¹| < 1/1000000 ∧
    (1:ℝ)/20 - 49938/1000000 = 62/1000000 := by
  have hs : (0:ℝ) < Real.sqrt 401 := Real.sqrt_pos.mpr (by norm_num)
  have hsq : Real.sqrt 401 ^ 2 = 401 := Real.sq_sqrt (by norm_num)
  have hx2 : ((Real.sqrt 401)⁻¹) ^ 2 = 1/401 := by
    rw [inv_pow, hsq]
    norm_num
  refine ⟨power_forward_eval, power_reverse_eval, ?_, ?_, by norm_num⟩
  · rw [n_required_half _ (by rw [hx2]; norm_num), hx2]
    norm_num
  · have hub : (Real.sqrt 401)⁻¹ < 49938/1000000 := by
      have h1 : (1000000:ℝ)/49938 < Real.sqrt 401 := by
        rw [show (1000000:ℝ)/49938 < Real.sqrt 401 ↔ ((1000000:ℝ)/49938) ^ 2 < 401
            from Real.lt_sqrt (by positivity)]
        rw [div_pow, div_lt_iff (by positivity)]
        norm_num
      calc (Real.sqrt 401)⁻¹ < ((1000000:ℝ)/49938)⁻¹ :=
            inv_lt_inv_of_lt (by positivity) h1
        _ = 49938/1000000 := by norm_num
    have hlb : (49937:ℝ)/1000000 < (Real.sqrt 401)⁻¹ := by
      have h1 : Real.sqrt 401 < (1000000:ℝ)/49937 := by
        rw [show Real.sqrt 401 < (1000000:ℝ)/49937 ↔ (401:ℝ) < ((1000000:ℝ)/49937) ^ 2
            from Real.sqrt_lt' (by positivity)]
        rw [div_pow, lt_div_iff (by positivity)]
        norm_num
      calc (49937:ℝ)/1000000 = ((1000000:ℝ)/49937)⁻¹ := by norm_num
        _ < (Real.sqrt 401)⁻¹ := inv_lt_inv_of_lt hs h1
    rw [abs_lt]
    constructor <;> linarith

end ABTest
